import Mathlib

/-
Verification development for the enforce repository (Go).

The file shallowly embeds the classification-and-relocation engine:
the extension classifiers of src/sorter.go (FileSorter.Execute) and
src/enforce.go (sortFiles), the file-name normalizer of src/command.go
(transformFileName), the empty-directory pruner of src/enforce.go
(removeEmptySubdirectories with isDirectoryEmpty), and the alternative
isDirectoryEmpty of src/directory.go.

Strings are modelled as List Char (Unicode code points); path strings use
the slash separator, as filepath does on Unix.  strings.ToLower is modelled
on the ASCII letters, the only case folding the extension tables exercise.
-/

namespace Enforce

/-! ## Go string and filepath primitives -/

/-- Scan of a reversed path used by goExt: stops at a path separator
(no extension) and returns the accumulated suffix at the first dot,
mirroring the loop of Go's filepath.Ext. -/
def goExtAux : List Char → List Char → List Char
  | [], _ => []
  | c :: cs, acc =>
    if c = '/' then []
    else if c = '.' then c :: acc
    else goExtAux cs (c :: acc)

/-- Model of Go filepath.Ext: the suffix beginning at the final dot in the
final slash-separated element; empty if there is no dot. -/
def goExt (l : List Char) : List Char := goExtAux l.reverse []

/-- Model of Go filepath.Base for paths that do not end in a separator:
the part after the final slash. -/
def goBase (l : List Char) : List Char :=
  (l.reverse.takeWhile (fun c => !(c = '/'))).reverse

/-- Model of strings.ToLower on one character, restricted to the ASCII
letters (the only characters the classifiers compare case-insensitively). -/
def lowerChar (c : Char) : Char :=
  match c with
  | 'A' => 'a' | 'B' => 'b' | 'C' => 'c' | 'D' => 'd' | 'E' => 'e'
  | 'F' => 'f' | 'G' => 'g' | 'H' => 'h' | 'I' => 'i' | 'J' => 'j'
  | 'K' => 'k' | 'L' => 'l' | 'M' => 'm' | 'N' => 'n' | 'O' => 'o'
  | 'P' => 'p' | 'Q' => 'q' | 'R' => 'r' | 'S' => 's' | 'T' => 't'
  | 'U' => 'u' | 'V' => 'v' | 'W' => 'w' | 'X' => 'x' | 'Y' => 'y'
  | 'Z' => 'z'
  | c => c

/-- Model of Go strings.ToLower. -/
def goToLower (l : List Char) : List Char := l.map lowerChar

/-- Model of Go strings.TrimSuffix: drop the suffix when present,
otherwise return the string unchanged. -/
def trimSuffix (l suf : List Char) : List Char :=
  if suf.isSuffixOf l then l.take (l.length - suf.length) else l

/-- Split a path on the slash separator (empty elements are kept; they
arise from leading, trailing or duplicate separators and are discarded by
the cleaning pass). -/
def splitSlash : List Char → List (List Char)
  | [] => [[]]
  | c :: cs =>
    if c = '/' then [] :: splitSlash cs
    else
      match splitSlash cs with
      | [] => [[c]]
      | e :: es => (c :: e) :: es

/-- The element pass of Go filepath.Clean, as a stack (the stack is kept
reversed): empty and dot elements are dropped; a dot-dot element pops the
preceding real name, is dropped at the root of a rooted path, and is kept
otherwise; every other element is pushed. -/
def cleanStack (rooted : Bool) : List (List Char) → List (List Char) → List (List Char)
  | [], stack => stack
  | e :: es, stack =>
    if e = [] then cleanStack rooted es stack
    else if e = ['.'] then cleanStack rooted es stack
    else if e = ['.', '.'] then
      match stack with
      | [] => if rooted then cleanStack rooted es [] else cleanStack rooted es [e]
      | top :: rest =>
        if top = ['.', '.'] then cleanStack rooted es (e :: top :: rest)
        else cleanStack rooted es rest
    else cleanStack rooted es (e :: stack)

/-- Join path elements with the slash separator. -/
def joinElems : List (List Char) → List Char
  | [] => []
  | [e] => e
  | e :: e₂ :: es => e ++ '/' :: joinElems (e₂ :: es)

/-- Model of Go filepath.Clean: split on separators, drop empty and dot
elements, resolve dot-dot elements, and rejoin; an empty result is the
root for a rooted path and the single dot otherwise. -/
def cleanPath (l : List Char) : List Char :=
  match l with
  | [] => ['.']
  | c :: _ =>
    let rooted := decide (c = '/')
    let elems := (cleanStack rooted (splitSlash l) []).reverse
    if rooted then '/' :: joinElems elems
    else if elems = [] then ['.'] else joinElems elems

/-- Model of Go filepath.Join on two elements: the non-empty elements are
joined with a slash and the result is cleaned, as in the source of
path/filepath. -/
def joinPath (a b : List Char) : List Char :=
  if a = [] then (if b = [] then [] else cleanPath b)
  else cleanPath (a ++ '/' :: b)

/-- First path component of a destination: the destination bucket. -/
def bucketOf (l : List Char) : List Char := l.takeWhile (fun c => !(c = '/'))

/-! ## The classification tables

sorterDestFolder is the switch of FileSorter.Execute (src/sorter.go lines
29-42), the later (canonical) table.  sortFilesDestFolder is the switch of
sortFiles (src/enforce.go lines 241-252), the earlier table.  A Go switch
over disjoint string cases is rendered as a first-match membership chain. -/

def docExts : List (List Char) :=
  [".pdf".data, ".djvu".data, ".epub".data, ".html".data, ".docx".data,
   ".md".data, ".tex".data, ".txt".data, ".doc".data, ".pptx".data,
   ".ipynb".data]

def jobExts : List (List Char) :=
  [".rst".data, ".rth".data, ".cdb".data, ".ls-dyna".data, ".db".data,
   ".dbb".data, ".esav".data, ".out".data]

def mediaExts : List (List Char) :=
  [".mkv".data, ".mp4".data, ".aac".data, ".flac".data, ".wav".data,
   ".avi".data, ".png".data, ".jpeg".data, ".mov".data, ".wmv".data,
   ".jpg".data, ".mp3".data]

def srcExts : List (List Char) :=
  [".py".data, ".go".data, ".ans".data, ".inp".data, ".c".data, ".m".data,
   ".for".data, ".cpp".data, ".java".data, ".scala".data, ".php".data,
   ".sh".data, ".asm".data, ".h".data, ".dat".data]

def exeExts : List (List Char) := [".exe".data]

/-- All extensions of the FileSorter.Execute table. -/
def sorterAllExts : List (List Char) :=
  docExts ++ jobExts ++ mediaExts ++ srcExts ++ exeExts

/-- Destination folder computed by FileSorter.Execute (src/sorter.go) for a
given path: the switch on the lower-cased extension.  The doc, media and
src rows join the bucket with the base name stripped of the lower-cased
extension. -/
def sorterDestFolder (path : List Char) : List Char :=
  let extension := goToLower (goExt path)
  if extension ∈ docExts then
    joinPath "doc".data (trimSuffix (goBase path) extension)
  else if extension ∈ jobExts then "job".data
  else if extension ∈ mediaExts then
    joinPath "media".data (trimSuffix (goBase path) extension)
  else if extension ∈ srcExts then
    joinPath "src".data (trimSuffix (goBase path) extension)
  else if extension ∈ exeExts then "bin".data
  else "data".data

def refExtsE : List (List Char) :=
  [".pdf".data, ".djvu".data, ".epub".data, ".html".data, ".mkv".data,
   ".mp4".data]

def docExtsE : List (List Char) :=
  [".docx".data, ".md".data, ".tex".data, ".txt".data, ".doc".data,
   ".pptx".data]

def egExtsE : List (List Char) := [".ipynb".data]

def srcExtsE : List (List Char) :=
  [".py".data, ".go".data, ".inp".data, ".c".data, ".m".data, ".for".data,
   ".cpp".data, ".java".data]

/-- All extensions of the sortFiles table. -/
def sortFilesAllExts : List (List Char) :=
  refExtsE ++ docExtsE ++ egExtsE ++ srcExtsE

/-- Destination folder computed by sortFiles (src/enforce.go) for a given
path: the switch on the lower-cased extension. -/
def sortFilesDestFolder (path : List Char) : List Char :=
  let extension := goToLower (goExt path)
  if extension ∈ refExtsE then
    joinPath "ref".data (trimSuffix (goBase path) extension)
  else if extension ∈ docExtsE then "doc".data
  else if extension ∈ egExtsE then
    joinPath "eg".data (trimSuffix (goBase path) extension)
  else if extension ∈ srcExtsE then
    joinPath "src".data (trimSuffix (goBase path) extension)
  else "data".data

/-! ## transformFileName (src/command.go lines 52-57)

The Go function applies three passes: the regexp [\s-] replaced by an
underscore (Go's \s is the set tab, newline, form feed, carriage return,
space), strings.ToLower, and the regexp of one or more underscores
replaced by a single underscore. -/

/-- Character class of Go's regexp \s (RE2 Perl class): tab, newline,
form feed, carriage return, space. -/
def isGoSpace (c : Char) : Bool :=
  c = ' ' || c = '\t' || c = '\n' || c = '\x0c' || c = '\r'

/-- One character of the first ReplaceAllString pass: whitespace and
hyphens become underscores. -/
def replChar (c : Char) : Char :=
  if isGoSpace c || c = '-' then '_' else c

/-- The third pass: a run of underscores collapses to one underscore,
rendered as removal of adjacent duplicate underscores. -/
def squeezeUnd : List Char → List Char
  | [] => []
  | [c] => [c]
  | c₁ :: c₂ :: cs =>
    if c₁ = '_' && c₂ = '_' then squeezeUnd (c₂ :: cs)
    else c₁ :: squeezeUnd (c₂ :: cs)

/-- Model of transformFileName: replace whitespace and hyphens by
underscores, lower-case, collapse underscore runs. -/
def transformFileName (l : List Char) : List Char :=
  squeezeUnd ((l.map replChar).map lowerChar)

/-! ## The directory tree

The filesystem forest is encoded first-child/next-sibling so that every
operation is plain structural recursion.  FT.nil is an empty forest;
FT.file and FT.dir carry the remaining siblings.  filepath.Walk visits a
directory's entries in lexical order; the model visits them in list
order, which the proved properties do not depend on. -/

inductive FT where
  | nil : FT
  | file (name : String) (rest : FT) : FT
  | dir (name : String) (children : FT) (rest : FT) : FT
deriving DecidableEq

/-- Top-level entry names of a forest. -/
def FT.names : FT → List String
  | .nil => []
  | .file n r => n :: FT.names r
  | .dir n _ r => n :: FT.names r

/-- Well-formed forest: sibling names are distinct at every level (what a
real filesystem guarantees). -/
def FT.wf : FT → Bool
  | .nil => true
  | .file n r => decide (n ∉ FT.names r) && FT.wf r
  | .dir n ch r => decide (n ∉ FT.names r) && FT.wf ch && FT.wf r

/-- Emptiness of a forest. -/
def FT.isNil : FT → Bool
  | .nil => true
  | _ => false

/-- No directory in the forest is empty. -/
def FT.noEmptyDir : FT → Bool
  | .nil => true
  | .file _ r => FT.noEmptyDir r
  | .dir _ ch r => !FT.isNil ch && FT.noEmptyDir ch && FT.noEmptyDir r

/-- Directory paths in the order filepath.Walk discovers them inside
removeEmptySubdirectories (src/enforce.go lines 326-336): depth-first
preorder, every directory before its descendants, paths relative to the
walk root. -/
def collectDirs : FT → List (List String)
  | .nil => []
  | .file _ r => collectDirs r
  | .dir n ch r =>
    [n] :: ((collectDirs ch).map (fun p => n :: p) ++ collectDirs r)

/-- Children of the directory named n among the entries of a forest. -/
def childrenOf (n : String) : FT → Option FT
  | .nil => none
  | .file _ r => childrenOf n r
  | .dir m ch r => if m = n then some ch else childrenOf n r

/-- Resolve a relative directory path to its children. -/
def lookupDir : List String → FT → Option FT
  | [], t => some t
  | n :: p, t =>
    match childrenOf n t with
    | some ch => lookupDir p ch
    | none => none

/-- Remove the entry at a relative path (os.Remove of the corresponding
full path; the pruner only invokes it on a directory just observed
empty). -/
def eraseAt : List String → FT → FT
  | _, .nil => .nil
  | [], .file m r => .file m r
  | [], .dir m ch r => .dir m ch r
  | n :: p, .file m r => .file m (eraseAt (n :: p) r)
  | [n], .dir m ch r => if m = n then r else .dir m ch (eraseAt [n] r)
  | n :: p₁ :: p₂, .dir m ch r =>
    if m = n then .dir m (eraseAt (p₁ :: p₂) ch) r
    else .dir m ch (eraseAt (n :: p₁ :: p₂) r)

/-- One iteration of the removal loop of removeEmptySubdirectories
(src/enforce.go lines 343-359) on an error-free tree: check emptiness of
the directory at the path (a missing directory yields an error, logged,
no change; a non-empty one is left alone) and remove it when empty. -/
def pruneStep (t : FT) (p : List String) : FT :=
  match lookupDir p t with
  | none => t
  | some ch => if FT.isNil ch then eraseAt p t else t

/-- Model of removeEmptySubdirectories (src/enforce.go lines 323-360) on
an error-free tree: collect every directory in walk order, then process
the list in reverse order, removing the directories found empty. -/
def removeEmptySubdirectoriesF (t : FT) : FT :=
  ((collectDirs t).reverse).foldl pruneStep t

/-- Bottom-up structural prune: proof-side description of what one pass of
removeEmptySubdirectoriesF computes on a well-formed forest (the
equivalence is proved below). -/
def pruneF : FT → FT
  | .nil => .nil
  | .file n r => .file n (pruneF r)
  | .dir n ch r =>
    if FT.isNil (pruneF ch) then pruneF r else .dir n (pruneF ch) (pruneF r)

/-! ## The walks of the relocation passes -/

/-- Names of the regular files anywhere in a forest. -/
def FT.fileNames : FT → List String
  | .nil => []
  | .file n r => n :: FT.fileNames r
  | .dir _ ch r => FT.fileNames ch ++ FT.fileNames r

/-- Every file name in the forest is free of path separators (true of any
real directory tree). -/
def FT.slashFree : FT → Bool
  | .nil => true
  | .file n r => n.data.all (fun c => !(c = '/')) && FT.slashFree r
  | .dir _ ch r => FT.slashFree ch && FT.slashFree r

/-- Full paths of the regular files filepath.Walk visits under a root, in
discovery order (the root prefix is the walk argument). -/
def walkFiles (root : String) : FT → List String
  | .nil => []
  | .file n r => (root ++ "/" ++ n) :: walkFiles root r
  | .dir n ch r => walkFiles (root ++ "/" ++ n) ch ++ walkFiles root r

/-- String-level wrappers of the path functions. -/
def goExtS (s : String) : String := ⟨goExt s.data⟩

def goBaseS (s : String) : String := ⟨goBase s.data⟩

def joinPathS (a b : String) : String := ⟨joinPath a.data b.data⟩

def sorterDestFolderS (s : String) : String := ⟨sorterDestFolder s.data⟩

def sortFilesDestFolderS (s : String) : String := ⟨sortFilesDestFolder s.data⟩

/-- The moves performed by the walk callback of FileSorter.Execute
(src/sorter.go lines 17-58): every regular file is sent to
Join(Join(s.FolderPath, destFolder), Base(path)), s.FolderPath being the
original root of the walk. -/
def fileSorterMoves (root : String) (t : FT) : List (String × String) :=
  (walkFiles root t).map (fun p =>
    (p, joinPathS (joinPathS root (sorterDestFolderS p)) (goBaseS p)))

/-- The moves performed by the filepath.Walk phase of one sortFiles
invocation (src/enforce.go lines 229-268).  The surrounding function
returns early when the walk root itself is named .git and skips direct
subdirectories named .git in its recursion, but this walk has no such
check: it visits every regular file below the root. -/
def sortFilesWalkMoves (root : String) (t : FT) : List (String × String) :=
  (walkFiles root t).map (fun p =>
    (p, joinPathS (joinPathS root (sortFilesDestFolderS p)) (goBaseS p)))

/-! ## Error values and the two isDirectoryEmpty revisions -/

/-- Model of the Go error values the directory-emptiness checks meet:
the io.EOF and os.ErrNotExist and os.ErrPermission sentinels, a
PathError wrapping an underlying error, and any other error.  Equality of
the model values renders Go's pointer comparison err == sentinel: a
wrapped error is never equal to a bare sentinel. -/
inductive GoError where
  | ioEOF : GoError
  | errNotExist : GoError
  | errPermission : GoError
  | pathWrap (e : GoError) : GoError
  | other (code : Nat) : GoError
deriving DecidableEq

/-- Model of errors.Is: the target matches the error itself or anything
reachable by unwrapping (syscall errors wrapped in a PathError report
themselves as the matching sentinel). -/
def errorsIs : GoError → GoError → Bool
  | .pathWrap inner, t => decide (GoError.pathWrap inner = t) || errorsIs inner t
  | e, t => decide (e = t)

/-- Outcome of f.Readdirnames(1): either one entry name was read (err is
nil) or no entry and an error (io.EOF when the directory is empty). -/
inductive ReadNamesResult where
  | name (s : String) : ReadNamesResult
  | readErr (e : GoError) : ReadNamesResult
deriving DecidableEq

/-- Model of isDirectoryEmpty of src/enforce.go lines 382-406: open
failure is returned as an error; a read entry means not empty; a
not-exist read error (errors.Is) means not empty with nil error; io.EOF
(errors.Is) means empty; any other read error is returned.  The read
outcome argument is the result Readdirnames would produce and is unused
when the open fails. -/
def isDirectoryEmptyEnf (openResult : Except GoError Unit)
    (rd : ReadNamesResult) : Bool × Option GoError :=
  match openResult with
  | .error e => (false, some e)
  | .ok _ =>
    match rd with
    | .name _ => (false, none)
    | .readErr e =>
      if errorsIs e .errNotExist then (false, none)
      else if errorsIs e .ioEOF then (true, none)
      else (false, some e)

/-- Model of isDirectoryEmpty of src/directory.go lines 56-81: open
failure is returned as an error; a read entry means not empty; a read
error pointer-equal to the os.ErrNotExist or os.ErrPermission sentinel is
returned; every other read error falls through to the final return of
(true, nil). -/
def isDirectoryEmptyDir (openResult : Except GoError Unit)
    (rd : ReadNamesResult) : Bool × Option GoError :=
  match openResult with
  | .error e => (false, some e)
  | .ok _ =>
    match rd with
    | .name _ => (false, none)
    | .readErr e =>
      if e = .errNotExist then (false, some e)
      else if e = .errPermission then (false, some e)
      else (true, none)

/-! ## Control flow of removeEmptySubdirectories under errors

The enumeration walk and the per-directory checks are abstracted as
outcomes so the error paths of src/enforce.go lines 326-359 can be
stated: a walk error reaches log.Fatal (the process exits); the removal
loop logs per-directory errors and continues. -/

/-- Outcome of the collection walk: the directory list, or the error the
walk callback returned. -/
inductive WalkResult where
  | ok (dirs : List (List String)) : WalkResult
  | fail (e : GoError) : WalkResult
deriving DecidableEq

/-- What one iteration of the removal loop did for one directory.  A
skipped entry records a directory whose emptiness check returned false
(the source logs nothing for it); the other three record the log.Println
and fmt.Printf calls. -/
inductive PruneEvent where
  | checkError (dir : List String) (e : GoError) : PruneEvent
  | removed (dir : List String) : PruneEvent
  | removeError (dir : List String) (e : GoError) : PruneEvent
  | skipped (dir : List String) : PruneEvent
deriving DecidableEq

/-- Result of one removeEmptySubdirectories call: log.Fatal terminates
the process on a walk error, otherwise the loop runs to completion. -/
inductive RunResult where
  | fatal (e : GoError) : RunResult
  | completed (events : List PruneEvent) : RunResult
deriving DecidableEq

/-- The body of the removal loop for one directory, given the outcomes of
isDirectoryEmpty and os.Remove. -/
def pruneLoopBody (check : List String → Except GoError Bool)
    (rem : List String → Option GoError) (d : List String) : PruneEvent :=
  match check d with
  | .error e => .checkError d e
  | .ok true =>
    match rem d with
    | some e => .removeError d e
    | none => .removed d
  | .ok false => .skipped d

/-- Control-flow model of removeEmptySubdirectories (src/enforce.go lines
323-360): a failed enumeration walk is fatal (log.Fatal); otherwise the
collected directories are processed in reverse order, one event each,
errors logged and the loop continuing. -/
def removeEmptySubdirsRun (w : WalkResult)
    (check : List String → Except GoError Bool)
    (rem : List String → Option GoError) : RunResult :=
  match w with
  | .fail e => .fatal e
  | .ok dirs => .completed (dirs.reverse.map (pruneLoopBody check rem))

/-! ## Helper lemmas on the string primitives -/

theorem takeWhile_middle (p : Char → Bool) (l₁ : List Char) (c : Char)
    (l₂ : List Char) (h₁ : ∀ x ∈ l₁, p x = true) (h₂ : p c = false) :
    (l₁ ++ c :: l₂).takeWhile p = l₁ := by
  induction l₁ with
  | nil => simp [List.takeWhile_cons, h₂]
  | cons a l ih =>
    have ha : p a = true := h₁ a (by simp)
    have ih' := ih (fun x hx => h₁ x (by simp [hx]))
    simp [List.takeWhile_cons, ha, ih']

theorem goBase_append_slash (pre n : List Char) (h : ∀ c ∈ n, c ≠ '/') :
    goBase (pre ++ '/' :: n) = n := by
  unfold goBase
  have hrev : (pre ++ '/' :: n).reverse = n.reverse ++ '/' :: pre.reverse := by
    simp [List.reverse_append]
  rw [hrev, takeWhile_middle _ _ _ _ ?h1 ?h2, List.reverse_reverse]
  case h1 =>
    intro x hx
    have hx' : x ≠ '/' := h x (List.mem_reverse.mp hx)
    simp [hx']
  case h2 => simp

theorem goBase_of_noSlash (l : List Char) (h : ∀ c ∈ l, c ≠ '/') :
    goBase l = l := by
  unfold goBase
  rw [List.takeWhile_eq_self_iff.mpr ?_, List.reverse_reverse]
  intro x hx
  have hx' : x ≠ '/' := h x (List.mem_reverse.mp hx)
  simp [hx']

theorem goBase_noSlash (l : List Char) : ∀ c ∈ goBase l, c ≠ '/' := by
  intro c hc
  unfold goBase at hc
  rw [List.mem_reverse] at hc
  have := List.mem_takeWhile_imp hc
  simpa using this

theorem goBase_goBase (l : List Char) : goBase (goBase l) = goBase l :=
  goBase_of_noSlash _ (goBase_noSlash l)

theorem goExtAux_takeWhile (rl : List Char) :
    ∀ acc, goExtAux (rl.takeWhile (fun c => !(c = '/'))) acc = goExtAux rl acc := by
  induction rl with
  | nil => intro acc; rfl
  | cons c cs ih =>
    intro acc
    by_cases hc : c = '/'
    · subst hc; simp [List.takeWhile_cons, goExtAux]
    · by_cases hd : c = '.'
      · subst hd; simp [List.takeWhile_cons, goExtAux]
      · simp [List.takeWhile_cons, goExtAux, hc, hd, ih]

theorem goExt_goBase (l : List Char) : goExt (goBase l) = goExt l := by
  unfold goExt goBase
  rw [List.reverse_reverse]
  exact goExtAux_takeWhile _ _

theorem goExtAux_dotted (rrest : List Char)
    (h : ∀ c ∈ rrest, c ≠ '/' ∧ c ≠ '.') :
    ∀ tail acc, goExtAux (rrest ++ '.' :: tail) acc = '.' :: (rrest.reverse ++ acc) := by
  induction rrest with
  | nil => intro tail acc; simp [goExtAux]
  | cons c cs ih =>
    intro tail acc
    obtain ⟨h1, h2⟩ := h c (by simp)
    have ih' := ih (fun x hx => h x (by simp [hx]))
    simp [goExtAux, h1, h2, ih']

theorem goExt_stem_ext (stem rest : List Char)
    (h : ∀ c ∈ rest, c ≠ '/' ∧ c ≠ '.') :
    goExt (stem ++ '.' :: rest) = '.' :: rest := by
  unfold goExt
  have hrev : (stem ++ '.' :: rest).reverse = rest.reverse ++ '.' :: stem.reverse := by
    simp [List.reverse_append]
  rw [hrev, goExtAux_dotted _ (fun c hc => h c (List.mem_reverse.mp hc))]
  simp

theorem trimSuffix_append (a b : List Char) : trimSuffix (a ++ b) b = a := by
  unfold trimSuffix
  rw [if_pos (List.isSuffixOf_iff_suffix.mpr ⟨a, rfl⟩)]
  simp [List.length_append]

theorem splitSlash_append (a : List Char) (ha : ∀ c ∈ a, c ≠ '/')
    (rest : List Char) :
    splitSlash (a ++ '/' :: rest) = a :: splitSlash rest := by
  induction a with
  | nil => simp [splitSlash]
  | cons c a' ih =>
    have hc : c ≠ '/' := ha c (by simp)
    have ih' := ih (fun x hx => ha x (by simp [hx]))
    show splitSlash (c :: (a' ++ '/' :: rest)) = (c :: a') :: splitSlash rest
    rw [splitSlash, if_neg hc, ih']

theorem splitSlash_noSlash (b : List Char) (hb : ∀ c ∈ b, c ≠ '/') :
    splitSlash b = [b] := by
  induction b with
  | nil => rfl
  | cons c b' ih =>
    have hc : c ≠ '/' := hb c (by simp)
    have ih' := ih (fun x hx => hb x (by simp [hx]))
    simp only [splitSlash, if_neg hc, ih']

theorem cleanStack_pair (a b : List Char)
    (ha0 : a ≠ []) (ha1 : a ≠ ['.']) (ha2 : a ≠ ['.', '.'])
    (hb0 : b ≠ []) (hb1 : b ≠ ['.']) (hb2 : b ≠ ['.', '.']) :
    cleanStack false [a, b] [] = [b, a] := by
  simp [cleanStack, ha0, ha1, ha2, hb0, hb1, hb2]

theorem cleanStack_skip (a b : List Char)
    (ha0 : a ≠ []) (ha1 : a ≠ ['.']) (ha2 : a ≠ ['.', '.'])
    (hb : b = [] ∨ b = ['.']) :
    cleanStack false [a, b] [] = [a] := by
  rcases hb with rfl | rfl
  · simp [cleanStack, ha0, ha1, ha2]
  · simp [cleanStack, ha0, ha1, ha2]

theorem cleanStack_mem_ne_nil (rooted : Bool) :
    ∀ es stack : List (List Char), (∀ x ∈ stack, x ≠ []) →
      ∀ x ∈ cleanStack rooted es stack, x ≠ [] := by
  intro es
  induction es with
  | nil => intro stack h; exact h
  | cons e es ih =>
    intro stack h
    by_cases h1 : e = []
    · simp only [cleanStack, if_pos h1]; exact ih stack h
    · by_cases h2 : e = ['.']
      · simp only [cleanStack, if_neg h1, if_pos h2]; exact ih stack h
      · by_cases h3 : e = ['.', '.']
        · simp only [cleanStack, if_neg h1, if_neg h2, if_pos h3]
          cases stack with
          | nil =>
            cases rooted with
            | true =>
              simp only [if_true]
              exact ih [] (by simp)
            | false =>
              simp only [Bool.false_eq_true, if_false]
              refine ih [e] ?_
              intro x hx
              rcases List.mem_singleton.mp hx with rfl
              exact h1
          | cons top rest =>
            show ∀ x ∈ (if top = ['.', '.'] then cleanStack rooted es (e :: top :: rest)
              else cleanStack rooted es rest), x ≠ []
            by_cases ht : top = ['.', '.']
            · rw [if_pos ht]
              refine ih (e :: top :: rest) ?_
              intro x hx
              rcases List.mem_cons.mp hx with rfl | hx'
              · exact h1
              · exact h x hx'
            · rw [if_neg ht]
              exact ih rest (fun x hx =>
                h x (List.mem_cons_of_mem _ hx))
        · simp only [cleanStack, if_neg h1, if_neg h2, if_neg h3]
          refine ih (e :: stack) ?_
          intro x hx
          rcases List.mem_cons.mp hx with rfl | hx'
          · exact h1
          · exact h x hx'

theorem joinElems_cons_ne_nil (e : List Char) (es : List (List Char))
    (he : e ≠ []) : joinElems (e :: es) ≠ [] := by
  cases es with
  | nil => simpa [joinElems] using he
  | cons e₂ es₂ => simp [joinElems]

theorem cleanPath_ne_nil (l : List Char) : cleanPath l ≠ [] := by
  cases l with
  | nil => simp [cleanPath]
  | cons c cs =>
    unfold cleanPath
    dsimp only
    by_cases hr : decide (c = '/') = true
    · simp [hr]
    · rw [Bool.eq_false_iff.mpr hr]
      simp only [Bool.false_eq_true, if_false]
      by_cases he : (cleanStack false (splitSlash (c :: cs)) []).reverse = []
      · simp [he]
      · rw [if_neg he]
        obtain ⟨e, es, hes⟩ := List.exists_cons_of_ne_nil he
        rw [hes]
        apply joinElems_cons_ne_nil
        refine cleanStack_mem_ne_nil false (splitSlash (c :: cs)) [] (by simp) e ?_
        rw [← List.mem_reverse, hes]
        exact List.mem_cons_self _ _

theorem joinPath_ne_nil_left (a b : List Char) (ha : a ≠ []) :
    joinPath a b ≠ [] := by
  unfold joinPath
  rw [if_neg ha]
  exact cleanPath_ne_nil _

theorem joinPath_normal (a b : List Char)
    (haS : ∀ c ∈ a, c ≠ '/') (ha1 : a ≠ ['.']) (ha2 : a ≠ ['.', '.'])
    (ha0 : a ≠ [])
    (hbS : ∀ c ∈ b, c ≠ '/') (hb0 : b ≠ []) (hb1 : b ≠ ['.'])
    (hb2 : b ≠ ['.', '.']) :
    joinPath a b = a ++ '/' :: b := by
  unfold joinPath
  rw [if_neg ha0]
  obtain ⟨a0, a', rfl⟩ := List.exists_cons_of_ne_nil ha0
  have ha0' : a0 ≠ '/' := haS a0 (by simp)
  have hsplit : splitSlash ((a0 :: a') ++ '/' :: b) = (a0 :: a') :: [b] := by
    rw [splitSlash_append _ haS, splitSlash_noSlash b hbS]
  unfold cleanPath
  simp only [List.cons_append]
  rw [show decide (a0 = '/') = false by simp [ha0']]
  simp only [Bool.false_eq_true, if_false]
  rw [show (a0 :: (a' ++ '/' :: b)) = ((a0 :: a') ++ '/' :: b) from by simp,
    hsplit, cleanStack_pair _ _ (by simp) ha1 ha2 hb0 hb1 hb2]
  simp [joinElems]

theorem joinPath_degenerate (a b : List Char)
    (haS : ∀ c ∈ a, c ≠ '/') (ha1 : a ≠ ['.']) (ha2 : a ≠ ['.', '.'])
    (ha0 : a ≠ []) (hb : b = [] ∨ b = ['.']) :
    joinPath a b = a := by
  unfold joinPath
  rw [if_neg ha0]
  obtain ⟨a0, a', rfl⟩ := List.exists_cons_of_ne_nil ha0
  have ha0' : a0 ≠ '/' := haS a0 (by simp)
  have hbS : ∀ c ∈ b, c ≠ '/' := by
    rcases hb with rfl | rfl
    · simp
    · intro c hc; rcases List.mem_singleton.mp hc with rfl; decide
  have hsplit : splitSlash ((a0 :: a') ++ '/' :: b) = (a0 :: a') :: [b] := by
    rw [splitSlash_append _ haS, splitSlash_noSlash b hbS]
  unfold cleanPath
  simp only [List.cons_append]
  rw [show decide (a0 = '/') = false by simp [ha0']]
  simp only [Bool.false_eq_true, if_false]
  rw [show (a0 :: (a' ++ '/' :: b)) = ((a0 :: a') ++ '/' :: b) from by simp,
    hsplit, cleanStack_skip _ _ (by simp) ha1 ha2 hb]
  simp [joinElems]

theorem bucketOf_self (a : List Char) (h : ∀ c ∈ a, c ≠ '/') :
    bucketOf a = a :=
  List.takeWhile_eq_self_iff.mpr (fun x hx => by simp [h x hx])

theorem trimSuffix_noSlash (l suf : List Char) (h : ∀ c ∈ l, c ≠ '/') :
    ∀ c ∈ trimSuffix l suf, c ≠ '/' := by
  intro c hc
  unfold trimSuffix at hc
  split_ifs at hc
  · exact h c (List.take_subset _ _ hc)
  · exact h c hc

theorem bucketOf_joinPath (a b : List Char)
    (haS : ∀ c ∈ a, c ≠ '/') (ha1 : a ≠ ['.']) (ha2 : a ≠ ['.', '.'])
    (ha0 : a ≠ [])
    (hbS : ∀ c ∈ b, c ≠ '/') (hb2 : b ≠ ['.', '.']) :
    bucketOf (joinPath a b) = a := by
  by_cases hb0 : b = []
  · rw [joinPath_degenerate a b haS ha1 ha2 ha0 (Or.inl hb0)]
    exact bucketOf_self a haS
  · by_cases hb1 : b = ['.']
    · rw [joinPath_degenerate a b haS ha1 ha2 ha0 (Or.inr hb1)]
      exact bucketOf_self a haS
    · rw [joinPath_normal a b haS ha1 ha2 ha0 hbS hb0 hb1 hb2]
      unfold bucketOf
      exact takeWhile_middle _ _ _ _ (fun x hx => by simp [haS x hx]) (by simp)

theorem sorterDestFolder_base (p : List Char) :
    sorterDestFolder p = sorterDestFolder (goBase p) := by
  unfold sorterDestFolder
  rw [goExt_goBase, goBase_goBase]

/-! ## Claim C2 -/

/-- Claim C2 counterexample: in the canonical table of FileSorter.Execute
the destination computed for a.pdf is the per-file subfolder doc/a, not
the flat folder doc. -/
theorem claim_C2_counterexample :
    sorterDestFolder "a.pdf".data = "doc/a".data ∧
    sorterDestFolder "a.pdf".data ≠ "doc".data := by decide

theorem sorterDest_doc_general (stem rest : List Char)
    (hs : ∀ c ∈ stem, c ≠ '/') (hr : ∀ c ∈ rest, c ≠ '/' ∧ c ≠ '.')
    (hlow : goToLower ('.' :: rest) = '.' :: rest)
    (hmem : ('.' :: rest) ∈ docExts) :
    sorterDestFolder (stem ++ '.' :: rest) = joinPath "doc".data stem := by
  unfold sorterDestFolder
  rw [goExt_stem_ext stem rest hr, hlow, if_pos hmem]
  rw [goBase_of_noSlash _ ?noslash]
  · exact congrArg (joinPath "doc".data) (trimSuffix_append stem ('.' :: rest))
  case noslash =>
    intro c hc
    rcases List.mem_append.mp hc with h | h
    · exact hs c h
    · rcases List.mem_cons.mp h with rfl | h
      · decide
      · exact (hr c h).1

theorem sorterDest_flat_job (stem rest : List Char)
    (hr : ∀ c ∈ rest, c ≠ '/' ∧ c ≠ '.')
    (hlow : goToLower ('.' :: rest) = '.' :: rest)
    (hdoc : ('.' :: rest) ∉ docExts) (hjob : ('.' :: rest) ∈ jobExts) :
    sorterDestFolder (stem ++ '.' :: rest) = "job".data := by
  unfold sorterDestFolder
  dsimp only
  rw [goExt_stem_ext stem rest hr, hlow, if_neg hdoc, if_pos hjob]

theorem sorterDest_flat_bin (stem : List Char) :
    sorterDestFolder (stem ++ ".exe".data) = "bin".data := by
  unfold sorterDestFolder
  dsimp only
  rw [goExt_stem_ext stem "exe".data (by decide)]
  rw [show goToLower ('.' :: "exe".data) = '.' :: "exe".data from by decide]
  rw [if_neg (by decide), if_neg (by decide), if_neg (by decide),
    if_neg (by decide), if_pos (by decide)]

/-- Claim C2 amended: in the canonical table, each of the eleven document
extensions sends a file to filepath.Join of doc and the file stem.  For a
normal stem (not empty, not dot, not dot-dot) this is the per-file
subfolder doc/<stem>, never the flat doc; Join's cleaning collapses it to
the flat doc when the stem is empty or a single dot, and to the walk root
itself (the dot path) when the stem is dot-dot.  The job and bin rows (and
the data default) remain flat. -/
theorem claim_C2_amended (stem : List Char) (hs : ∀ c ∈ stem, c ≠ '/')
    (e : List Char) (he : e ∈ docExts) :
    sorterDestFolder (stem ++ e) = joinPath "doc".data stem ∧
    (stem ≠ [] → stem ≠ ['.'] → stem ≠ ['.', '.'] →
      sorterDestFolder (stem ++ e) = "doc".data ++ '/' :: stem ∧
        sorterDestFolder (stem ++ e) ≠ "doc".data) ∧
    (stem = [] ∨ stem = ['.'] → sorterDestFolder (stem ++ e) = "doc".data) ∧
    (stem = ['.', '.'] → sorterDestFolder (stem ++ e) = ['.']) ∧
    (∀ e' ∈ jobExts, sorterDestFolder (stem ++ e') = "job".data) ∧
    sorterDestFolder (stem ++ ".exe".data) = "bin".data := by
  have key : sorterDestFolder (stem ++ e) = joinPath "doc".data stem := by
    fin_cases he <;>
      exact sorterDest_doc_general stem _ hs (by decide) (by decide) (by decide)
  refine ⟨key, ?_, ?_, ?_, ?_, sorterDest_flat_bin stem⟩
  · intro h0 h1 h2
    have hjoin : joinPath "doc".data stem = "doc".data ++ '/' :: stem :=
      joinPath_normal _ _ (by decide) (by decide) (by decide) (by decide)
        hs h0 h1 h2
    refine ⟨key.trans hjoin, ?_⟩
    rw [key, hjoin]
    intro hcontra
    have := congrArg List.length hcontra
    simp at this
  · intro hdeg
    rw [key]
    exact joinPath_degenerate _ _ (by decide) (by decide) (by decide)
      (by decide) hdeg
  · intro hdd
    subst hdd
    rw [key]
    decide
  · intro e' he'
    fin_cases he' <;>
      exact sorterDest_flat_job stem _ (by decide) (by decide) (by decide)
        (by decide)

/-- Witness for claim C2 amended at stem a and extension pdf: the
destination is the per-file subfolder doc/a, not the flat doc. -/
theorem claim_C2_amended_witness :
    sorterDestFolder ("a".data ++ ".pdf".data) = joinPath "doc".data "a".data ∧
    sorterDestFolder ("a".data ++ ".pdf".data) = "doc".data ++ '/' :: "a".data ∧
    sorterDestFolder ("a".data ++ ".pdf".data) ≠ "doc".data :=
  ⟨(claim_C2_amended "a".data (by decide) ".pdf".data (by decide)).1,
   ((claim_C2_amended "a".data (by decide) ".pdf".data (by decide)).2.1
     (by decide) (by decide) (by decide)).1,
   ((claim_C2_amended "a".data (by decide) ".pdf".data (by decide)).2.1
     (by decide) (by decide) (by decide)).2⟩

/-! ## Claim C3 -/

/-- Claim C3: both classifiers are total functions returning one non-empty
destination for every path, and any path whose lower-cased extension is
not in the respective rule table is sent to the default destination
data. -/
theorem claim_C3 (p : List Char) :
    (sorterDestFolder p ≠ [] ∧
      (goToLower (goExt p) ∉ sorterAllExts → sorterDestFolder p = "data".data)) ∧
    (sortFilesDestFolder p ≠ [] ∧
      (goToLower (goExt p) ∉ sortFilesAllExts → sortFilesDestFolder p = "data".data)) := by
  refine ⟨⟨?_, ?_⟩, ?_, ?_⟩
  · unfold sorterDestFolder
    dsimp only
    split_ifs <;>
      first
        | exact joinPath_ne_nil_left _ _ (by decide)
        | decide
  · intro h
    simp only [sorterAllExts, List.mem_append, not_or] at h
    obtain ⟨⟨⟨⟨h1, h2⟩, h3⟩, h4⟩, h5⟩ := h
    simp [sorterDestFolder, h1, h2, h3, h4, h5]
  · unfold sortFilesDestFolder
    dsimp only
    split_ifs <;>
      first
        | exact joinPath_ne_nil_left _ _ (by decide)
        | decide
  · intro h
    simp only [sortFilesAllExts, List.mem_append, not_or] at h
    obtain ⟨⟨⟨h1, h2⟩, h3⟩, h4⟩ := h
    simp [sortFilesDestFolder, h1, h2, h3, h4]

/-- Witness for claim C3 at a path with an unknown extension. -/
theorem claim_C3_witness :
    (sorterDestFolder "x.xyz".data ≠ [] ∧
      sorterDestFolder "x.xyz".data = "data".data) ∧
    (sortFilesDestFolder "x.xyz".data ≠ [] ∧
      sortFilesDestFolder "x.xyz".data = "data".data) :=
  ⟨⟨(claim_C3 "x.xyz".data).1.1, (claim_C3 "x.xyz".data).1.2 (by decide)⟩,
   ⟨(claim_C3 "x.xyz".data).2.1, (claim_C3 "x.xyz".data).2.2 (by decide)⟩⟩

/-! ## Claim C8 -/

/-- Claim C8 counterexample: classifying the base name x with extension
PDF upper-cased versus pdf lower-cased yields different destinations in
both classifiers, because TrimSuffix is applied with the lower-cased
extension, which is not a suffix of the original base name. -/
theorem claim_C8_counterexample :
    sorterDestFolder "x.PDF".data ≠ sorterDestFolder "x.pdf".data ∧
    sortFilesDestFolder "x.PDF".data ≠ sortFilesDestFolder "x.pdf".data ∧
    sorterDestFolder "x.PDF".data = "doc/x.PDF".data ∧
    sorterDestFolder "x.pdf".data = "doc/x".data := by decide

/-- Claim C8 amended: the destination bucket (the first path component of
the destination) is case-insensitive in the extension — two paths with
the same lower-cased extension land in the same bucket — provided neither
file's stem (its base name with the lower-cased extension trimmed) is the
dot-dot element, which Join's cleaning would collapse out of the bucket
(filepath.Join of doc and dot-dot is the walk root itself).  The full
destination may still differ in the per-file subfolder, which keeps the
original base name with an upper-cased extension unstripped. -/
theorem claim_C8_amended (p q : List Char)
    (h : goToLower (goExt p) = goToLower (goExt q))
    (hp : trimSuffix (goBase p) (goToLower (goExt p)) ≠ ['.', '.'])
    (hq : trimSuffix (goBase q) (goToLower (goExt q)) ≠ ['.', '.']) :
    bucketOf (sorterDestFolder p) = bucketOf (sorterDestFolder q) ∧
    bucketOf (sortFilesDestFolder p) = bucketOf (sortFilesDestFolder q) := by
  rw [h] at hp
  constructor
  · simp only [sorterDestFolder]
    rw [h]
    split_ifs <;>
      first
        | rfl
        | rw [bucketOf_joinPath _ _ (by decide) (by decide) (by decide)
                (by decide) (trimSuffix_noSlash _ _ (goBase_noSlash p)) hp,
              bucketOf_joinPath _ _ (by decide) (by decide) (by decide)
                (by decide) (trimSuffix_noSlash _ _ (goBase_noSlash q)) hq]
  · simp only [sortFilesDestFolder]
    rw [h]
    split_ifs <;>
      first
        | rfl
        | rw [bucketOf_joinPath _ _ (by decide) (by decide) (by decide)
                (by decide) (trimSuffix_noSlash _ _ (goBase_noSlash p)) hp,
              bucketOf_joinPath _ _ (by decide) (by decide) (by decide)
                (by decide) (trimSuffix_noSlash _ _ (goBase_noSlash q)) hq]

/-- Witness for claim C8 amended at the base names a.PDF and b.pdf. -/
theorem claim_C8_amended_witness :
    bucketOf (sorterDestFolder "a.PDF".data) = bucketOf (sorterDestFolder "b.pdf".data) ∧
    bucketOf (sortFilesDestFolder "a.PDF".data) = bucketOf (sortFilesDestFolder "b.pdf".data) :=
  claim_C8_amended "a.PDF".data "b.pdf".data (by decide) (by decide) (by decide)

/-! ## Claim C10 -/

/-- Claim C10: in the directory.go revision, isDirectoryEmpty returns
(true, nil) whenever reading the first entry name fails with an error that
is not pointer-identical to the os.ErrNotExist or os.ErrPermission
sentinel — including a wrapped permission error — so an unreadable
directory can be reported as empty without an error. -/
theorem claim_C10 (e : GoError) (h1 : e ≠ .errNotExist)
    (h2 : e ≠ .errPermission) :
    isDirectoryEmptyDir (.ok ()) (.readErr e) = (true, none) := by
  simp [isDirectoryEmptyDir, h1, h2]

/-- Witness for claim C10 at a permission error wrapped in a PathError,
the shape Readdirnames actually produces. -/
theorem claim_C10_witness :
    isDirectoryEmptyDir (.ok ()) (.readErr (.pathWrap .errPermission)) = (true, none) :=
  claim_C10 (.pathWrap .errPermission) (by decide) (by decide)

/-! ## Claim C7 -/

/-- Claim C7 counterexample: a directory that vanished before the open —
the open fails with a wrapped not-exist error — is returned as an error
by isDirectoryEmpty of enforce.go, not treated as a not-empty no-op. -/
theorem claim_C7_counterexample :
    isDirectoryEmptyEnf (.error (.pathWrap .errNotExist)) (.readErr .ioEOF) =
      (false, some (.pathWrap .errNotExist)) ∧
    (isDirectoryEmptyEnf (.error (.pathWrap .errNotExist)) (.readErr .ioEOF)).2 ≠ none := by
  decide

/-- Claim C7 amended: once the directory is open, the emptiness test of
enforce.go returns empty exactly when the read yields no entry with an
end-of-listing error (and no not-exist error), returns not empty with a
nil error when an entry is read, and treats a not-exist read error — the
directory vanishing at the read step — as not-empty with a nil error; a
directory that vanished before the open is instead surfaced as an error
(the pruning caller logs it and continues). -/
theorem claim_C7_amended :
    (∀ rd : ReadNamesResult, ((isDirectoryEmptyEnf (.ok ()) rd).1 = true ↔
        ∃ e, rd = .readErr e ∧ errorsIs e .errNotExist = false ∧
          errorsIs e .ioEOF = true)) ∧
    (∀ s : String, isDirectoryEmptyEnf (.ok ()) (.name s) = (false, none)) ∧
    (∀ e : GoError, errorsIs e .errNotExist = true →
      isDirectoryEmptyEnf (.ok ()) (.readErr e) = (false, none)) ∧
    (∀ (e : GoError) (rd : ReadNamesResult),
      isDirectoryEmptyEnf (.error e) rd = (false, some e)) := by
  refine ⟨?_, fun s => rfl, ?_, fun e rd => rfl⟩
  · intro rd
    cases rd with
    | name s => simp [isDirectoryEmptyEnf]
    | readErr e =>
      by_cases hne : errorsIs e .errNotExist = true
      · simp [isDirectoryEmptyEnf, hne]
      · by_cases heof : errorsIs e .ioEOF = true
        · simp only [isDirectoryEmptyEnf, hne, heof]
          simp only [Bool.false_eq_true] at hne
          simp [hne, heof]
        · simp only [isDirectoryEmptyEnf, hne, heof]
          simp only [Bool.false_eq_true] at hne heof
          simp [hne, heof]
  · intro e he
    simp [isDirectoryEmptyEnf, he]

/-- Witness for claim C7 amended: a not-exist error at the read step is a
no-op rather than an error. -/
theorem claim_C7_amended_witness :
    isDirectoryEmptyEnf (.ok ()) (.readErr (.pathWrap .errNotExist)) = (false, none) :=
  claim_C7_amended.2.2.1 (.pathWrap .errNotExist) (by decide)

/-! ## Claim C4 -/

/-- Claim C4 counterexample: an error during the enumeration walk of
removeEmptySubdirectories reaches log.Fatal — the run is aborted rather
than logged for that directory with the pass continuing. -/
theorem claim_C4_counterexample :
    removeEmptySubdirsRun (.fail (.other 13)) (fun _ => .ok false) (fun _ => none) =
      .fatal (.other 13) := rfl

/-- Claim C4 amended: once the enumeration walk has succeeded, the removal
loop of removeEmptySubdirectories never aborts — it processes every
collected directory, one event each, and per-directory errors of the
emptiness check or of os.Remove are logged while the pass continues to
completion; an error during the enumeration walk itself, however, is
fatal. -/
theorem claim_C4_amended (dirs : List (List String))
    (check : List String → Except GoError Bool)
    (rem : List String → Option GoError) :
    ∃ evs, removeEmptySubdirsRun (.ok dirs) check rem = .completed evs ∧
      evs.length = dirs.length ∧
      (∀ d ∈ dirs, ∀ e, check d = .error e → PruneEvent.checkError d e ∈ evs) ∧
      (∀ d ∈ dirs, ∀ e, check d = .ok true → rem d = some e →
        PruneEvent.removeError d e ∈ evs) := by
  refine ⟨_, rfl, by simp, ?_, ?_⟩
  · intro d hd e he
    have hbody : PruneEvent.checkError d e = pruneLoopBody check rem d := by
      simp [pruneLoopBody, he]
    rw [hbody]
    exact List.mem_map_of_mem _ (List.mem_reverse.mpr hd)
  · intro d hd e h1 h2
    have hbody : PruneEvent.removeError d e = pruneLoopBody check rem d := by
      simp [pruneLoopBody, h1, h2]
    rw [hbody]
    exact List.mem_map_of_mem _ (List.mem_reverse.mpr hd)

/-- Witness for claim C4 amended: a failing emptiness check on the only
collected directory is logged and the run still completes. -/
theorem claim_C4_amended_witness :
    ∃ evs, removeEmptySubdirsRun (.ok [["a"]])
        (fun _ => Except.error (.other 7)) (fun _ => none) = .completed evs ∧
      PruneEvent.checkError ["a"] (.other 7) ∈ evs := by
  obtain ⟨evs, h1, _, h3, _⟩ :=
    claim_C4_amended [["a"]] (fun _ => Except.error (.other 7)) (fun _ => none)
  exact ⟨evs, h1, h3 ["a"] (by simp) (.other 7) rfl⟩

/-! ## Claim C1 -/

/-- Claim C1, evaluated at the failing input: the filepath.Walk phase of
sortFiles classifies and moves the regular file .git/a.pdf below the walk
root (to ref/a under the root), even though the surrounding function
skips directories named .git in its per-directory recursion; and
removeEmptySubdirectories removes the empty directory .git/objects — and
then the emptied .git itself — leaving nothing. -/
theorem claim_C1_evaluation :
    sortFilesWalkMoves "/proj" (.dir ".git" (.file "a.pdf" .nil) .nil) =
      [("/proj/.git/a.pdf", "/proj/ref/a/a.pdf")] ∧
    removeEmptySubdirectoriesF (.dir ".git" (.dir "objects" .nil .nil) .nil) = .nil := by
  decide

/-! ## Claim C9 -/

theorem lowerChar_cases (c : Char) :
    lowerChar c = c ∨ lowerChar c ∈
      ['a', 'b', 'c', 'd', 'e', 'f', 'g', 'h', 'i', 'j', 'k', 'l', 'm',
       'n', 'o', 'p', 'q', 'r', 's', 't', 'u', 'v', 'w', 'x', 'y', 'z'] := by
  unfold lowerChar
  split
  all_goals first
    | exact Or.inl rfl
    | exact Or.inr (by decide)

theorem lowerChar_of_lowerLetter (d : Char)
    (h : d ∈ ['a', 'b', 'c', 'd', 'e', 'f', 'g', 'h', 'i', 'j', 'k', 'l', 'm',
       'n', 'o', 'p', 'q', 'r', 's', 't', 'u', 'v', 'w', 'x', 'y', 'z']) :
    lowerChar d = d := by
  have key : ∀ x ∈ ['a', 'b', 'c', 'd', 'e', 'f', 'g', 'h', 'i', 'j', 'k', 'l',
      'm', 'n', 'o', 'p', 'q', 'r', 's', 't', 'u', 'v', 'w', 'x', 'y', 'z'],
      lowerChar x = x := by decide
  exact key d h

theorem lowerChar_idem (c : Char) : lowerChar (lowerChar c) = lowerChar c := by
  rcases lowerChar_cases c with h | h
  · rw [h]; exact h
  · exact lowerChar_of_lowerLetter _ h

theorem replChar_eq_self (c : Char)
    (h : (isGoSpace c || decide (c = '-')) = false) : replChar c = c := by
  unfold replChar
  simp [h]

theorem replChar_not_bad (c : Char) :
    (isGoSpace (replChar c) || decide (replChar c = '-')) = false := by
  unfold replChar
  split_ifs with h
  · decide
  · exact Bool.eq_false_iff.mpr h

theorem lowerChar_not_bad (c : Char)
    (h : (isGoSpace c || decide (c = '-')) = false) :
    (isGoSpace (lowerChar c) || decide (lowerChar c = '-')) = false := by
  rcases lowerChar_cases c with h' | h'
  · rw [h']; exact h
  · have key : ∀ x ∈ ['a', 'b', 'c', 'd', 'e', 'f', 'g', 'h', 'i', 'j', 'k',
        'l', 'm', 'n', 'o', 'p', 'q', 'r', 's', 't', 'u', 'v', 'w', 'x', 'y',
        'z'], (isGoSpace x || decide (x = '-')) = false := by decide
    exact key _ h'

theorem mem_squeezeUnd (c : Char) : ∀ m, c ∈ squeezeUnd m → c ∈ m := by
  intro m
  induction m with
  | nil => intro h; exact absurd h (by simp [squeezeUnd])
  | cons a t ih =>
    cases t with
    | nil => intro h; simpa [squeezeUnd] using h
    | cons b t' =>
      intro h
      by_cases hab : (decide (a = '_') && decide (b = '_')) = true
      · rw [squeezeUnd, if_pos hab] at h
        exact List.mem_cons_of_mem a (ih h)
      · rw [squeezeUnd, if_neg hab] at h
        rcases List.mem_cons.mp h with rfl | h'
        · exact List.mem_cons_self _ _
        · exact List.mem_cons_of_mem a (ih h')

theorem squeezeUnd_head (c : Char) (cs : List Char) :
    ∃ t, squeezeUnd (c :: cs) = c :: t := by
  induction cs generalizing c with
  | nil => exact ⟨[], rfl⟩
  | cons b t' ih =>
    by_cases hab : (decide (c = '_') && decide (b = '_')) = true
    · have hc : c = '_' := by
        have := (Bool.and_eq_true _ _).mp hab
        exact of_decide_eq_true this.1
      have hb : b = '_' := by
        have := (Bool.and_eq_true _ _).mp hab
        exact of_decide_eq_true this.2
      obtain ⟨t, ht⟩ := ih b
      refine ⟨t, ?_⟩
      rw [squeezeUnd, if_pos hab, ht, hb, hc]
    · exact ⟨squeezeUnd (b :: t'), by rw [squeezeUnd, if_neg hab]⟩

theorem squeezeUnd_chain (m : List Char) :
    List.Chain' (fun a b => ¬(a = '_' ∧ b = '_')) (squeezeUnd m) := by
  induction m with
  | nil => simp [squeezeUnd]
  | cons a t ih =>
    cases t with
    | nil => simp [squeezeUnd]
    | cons b t' =>
      by_cases hab : (decide (a = '_') && decide (b = '_')) = true
      · rw [squeezeUnd, if_pos hab]
        exact ih
      · rw [squeezeUnd, if_neg hab]
        obtain ⟨t2, ht2⟩ := squeezeUnd_head b t'
        rw [ht2]
        rw [ht2] at ih
        refine List.chain'_cons.mpr ⟨?_, ih⟩
        rintro ⟨h1, h2⟩
        exact hab (by simp [h1, h2])

theorem squeezeUnd_eq_self (m : List Char)
    (h : List.Chain' (fun a b => ¬(a = '_' ∧ b = '_')) m) :
    squeezeUnd m = m := by
  induction m with
  | nil => rfl
  | cons a t ih =>
    cases t with
    | nil => rfl
    | cons b t' =>
      rw [List.chain'_cons] at h
      have hab : ¬((decide (a = '_') && decide (b = '_')) = true) := by
        intro hc
        have := (Bool.and_eq_true _ _).mp hc
        exact h.1 ⟨of_decide_eq_true this.1, of_decide_eq_true this.2⟩
      rw [squeezeUnd, if_neg hab, ih h.2]

theorem map_id_of_mem (f : Char → Char) (l : List Char)
    (h : ∀ c ∈ l, f c = c) : l.map f = l := by
  induction l with
  | nil => rfl
  | cons a t ih => simp [h a (by simp), ih (fun c hc => h c (by simp [hc]))]

/-- Claim C9: transformFileName is idempotent — applying it twice is the
same as applying it once.  The output of a first application contains no
whitespace or hyphen, is fixed by the lower-casing pass, and has no two
adjacent underscores, so every pass of the second application is the
identity. -/
theorem claim_C9 (l : List Char) :
    transformFileName (transformFileName l) = transformFileName l := by
  have hout : ∀ c ∈ transformFileName l, ∃ a, c = lowerChar (replChar a) := by
    intro c hc
    unfold transformFileName at hc
    have hy := mem_squeezeUnd c _ hc
    rw [List.map_map] at hy
    obtain ⟨a, _, ha⟩ := List.mem_map.mp hy
    exact ⟨a, ha.symm⟩
  have h1 : (transformFileName l).map replChar = transformFileName l := by
    apply map_id_of_mem
    intro c hc
    obtain ⟨a, rfl⟩ := hout c hc
    exact replChar_eq_self _ (lowerChar_not_bad _ (replChar_not_bad a))
  have h2 : (transformFileName l).map lowerChar = transformFileName l := by
    apply map_id_of_mem
    intro c hc
    obtain ⟨a, rfl⟩ := hout c hc
    exact lowerChar_idem _
  show squeezeUnd (((transformFileName l).map replChar).map lowerChar) =
    transformFileName l
  rw [h1, h2]
  exact squeezeUnd_eq_self _ (squeezeUnd_chain _)

/-! ## Claim C5 -/

theorem data_slash_append (root n : String) :
    (root ++ "/" ++ n).data = root.data ++ '/' :: n.data := by
  simp [String.data_append]

theorem goBaseS_slash (root n : String)
    (h : n.data.all (fun c => !(c = '/')) = true) :
    goBaseS (root ++ "/" ++ n) = n := by
  unfold goBaseS
  rw [data_slash_append, goBase_append_slash root.data n.data ?_]
  case _ =>
    intro c hc
    have := List.all_eq_true.mp h c hc
    simpa using this

theorem walkFiles_base (t : FT) : ∀ root p, FT.slashFree t = true →
    p ∈ walkFiles root t → goBaseS p ∈ FT.fileNames t := by
  induction t with
  | nil =>
    intro root p _ hp
    exact absurd hp (by simp [walkFiles])
  | file n r ih =>
    intro root p h hp
    rw [FT.slashFree] at h
    have h1 : n.data.all (fun c => !(c = '/')) = true :=
      ((Bool.and_eq_true _ _).mp h).1
    have h2 := ((Bool.and_eq_true _ _).mp h).2
    rw [walkFiles] at hp
    rw [FT.fileNames]
    rcases List.mem_cons.mp hp with rfl | hp'
    · rw [goBaseS_slash root n h1]
      exact List.mem_cons_self _ _
    · exact List.mem_cons_of_mem _ (ih root p h2 hp')
  | dir n ch r ihch ihr =>
    intro root p h hp
    rw [FT.slashFree] at h
    have h1 := ((Bool.and_eq_true _ _).mp h).1
    have h2 := ((Bool.and_eq_true _ _).mp h).2
    rw [walkFiles] at hp
    rw [FT.fileNames]
    rcases List.mem_append.mp hp with hp' | hp'
    · exact List.mem_append_left _ (ihch _ p h1 hp')
    · exact List.mem_append_right _ (ihr root p h2 hp')

/-- Claim C5: for every regular file the walk of FileSorter.Execute finds,
at any depth, the relocation destination is computed from the original
walk root and the file's base name alone — the intermediate directories
never enter it — so nested files bubble up into the root-level classified
folders. -/
theorem claim_C5 (root : String) (t : FT) (h : FT.slashFree t = true) :
    ∀ pr ∈ fileSorterMoves root t,
      pr.2 = joinPathS (joinPathS root (sorterDestFolderS (goBaseS pr.1)))
          (goBaseS pr.1) ∧
        goBaseS pr.1 ∈ FT.fileNames t := by
  intro pr hpr
  unfold fileSorterMoves at hpr
  obtain ⟨p, hp, rfl⟩ := List.mem_map.mp hpr
  constructor
  · show joinPathS (joinPathS root (sorterDestFolderS p)) (goBaseS p) = _
    have hfac : sorterDestFolderS p = sorterDestFolderS (goBaseS p) := by
      show String.mk (sorterDestFolder p.data) = String.mk (sorterDestFolder (goBase p.data))
      exact congrArg String.mk (sorterDestFolder_base p.data)
    rw [hfac]
  · exact walkFiles_base t root p h hp

/-- Witness for claim C5 at a file nested one directory below the root:
its destination is the root-level doc/x folder. -/
theorem claim_C5_witness :
    (("/r/sub/x.pdf", "/r/doc/x/x.pdf") : String × String).2 =
      joinPathS (joinPathS "/r"
          (sorterDestFolderS (goBaseS (("/r/sub/x.pdf", "/r/doc/x/x.pdf") : String × String).1)))
        (goBaseS (("/r/sub/x.pdf", "/r/doc/x/x.pdf") : String × String).1) ∧
      goBaseS (("/r/sub/x.pdf", "/r/doc/x/x.pdf") : String × String).1 ∈
        FT.fileNames (.dir "sub" (.file "x.pdf" .nil) .nil) :=
  claim_C5 "/r" (.dir "sub" (.file "x.pdf" .nil) .nil) (by decide)
    ("/r/sub/x.pdf", "/r/doc/x/x.pdf") (by decide)

/-! ## Claim C6: lemmas on pruneStep -/

theorem lookupDir_file (n : String) (p : List String) (m : String) (r : FT) :
    lookupDir (n :: p) (.file m r) = lookupDir (n :: p) r := by
  simp only [lookupDir, childrenOf]

theorem eraseAt_file (p : List String) (hp : p ≠ []) (m : String) (r : FT) :
    eraseAt p (.file m r) = .file m (eraseAt p r) := by
  cases p with
  | nil => exact absurd rfl hp
  | cons n q => simp only [eraseAt]

theorem pruneStep_file (m : String) (r : FT) (n : String) (p : List String) :
    pruneStep (.file m r) (n :: p) = .file m (pruneStep r (n :: p)) := by
  unfold pruneStep
  rw [lookupDir_file]
  cases hres : lookupDir (n :: p) r with
  | none => rfl
  | some ch =>
    by_cases hch : FT.isNil ch = true
    · simp only [hch, if_true]
      exact eraseAt_file (n :: p) (by simp) m r
    · simp [hch]

theorem lookupDir_dir_other (n : String) (p : List String) (m : String)
    (ch r : FT) (hmn : m ≠ n) :
    lookupDir (n :: p) (.dir m ch r) = lookupDir (n :: p) r := by
  simp only [lookupDir, childrenOf, if_neg hmn]

theorem eraseAt_dir_other (n : String) (q : List String) (m : String)
    (ch r : FT) (hmn : m ≠ n) :
    eraseAt (n :: q) (.dir m ch r) = .dir m ch (eraseAt (n :: q) r) := by
  cases q with
  | nil => simp only [eraseAt, if_neg hmn]
  | cons a b => simp only [eraseAt, if_neg hmn]

theorem pruneStep_dir_other (m : String) (ch r : FT) (n : String)
    (p : List String) (hmn : m ≠ n) :
    pruneStep (.dir m ch r) (n :: p) = .dir m ch (pruneStep r (n :: p)) := by
  unfold pruneStep
  rw [lookupDir_dir_other _ _ _ _ _ hmn]
  cases hres : lookupDir (n :: p) r with
  | none => rfl
  | some c2 =>
    by_cases hch : FT.isNil c2 = true
    · simp only [hch, if_true]
      exact eraseAt_dir_other n p m ch r hmn
    · simp [hch]

theorem pruneStep_dir_descend (n : String) (ch r : FT) (p₁ : String)
    (p₂ : List String) :
    pruneStep (.dir n ch r) (n :: p₁ :: p₂) = .dir n (pruneStep ch (p₁ :: p₂)) r := by
  unfold pruneStep
  have hl : lookupDir (n :: p₁ :: p₂) (.dir n ch r) = lookupDir (p₁ :: p₂) ch := by
    simp [lookupDir, childrenOf]
  rw [hl]
  cases hres : lookupDir (p₁ :: p₂) ch with
  | none => rfl
  | some c2 =>
    by_cases hch : FT.isNil c2 = true
    · simp only [hch, if_true]
      simp [eraseAt]
    · simp [hch]

theorem pruneStep_dir_self (n : String) (ch r : FT) :
    pruneStep (.dir n ch r) [n] =
      if FT.isNil ch then r else .dir n ch r := by
  unfold pruneStep
  have hl : lookupDir [n] (.dir n ch r) = some ch := by
    simp [lookupDir, childrenOf]
  rw [hl]
  by_cases hch : FT.isNil ch = true
  · simp only [hch, if_true]
    simp [eraseAt]
  · simp [hch]

/-! ## Claim C6: lemmas on folds of pruneStep -/

theorem foldl_pruneStep_file (m : String) (ps : List (List String))
    (h : ∀ p ∈ ps, p ≠ []) : ∀ r : FT,
    List.foldl pruneStep (.file m r) ps = .file m (List.foldl pruneStep r ps) := by
  induction ps with
  | nil => intro r; rfl
  | cons p ps ih =>
    intro r
    obtain ⟨n, q, rfl⟩ : ∃ n q, p = n :: q := by
      cases p with
      | nil => exact absurd rfl (h [] (by simp))
      | cons n q => exact ⟨n, q, rfl⟩
    simp only [List.foldl_cons]
    rw [pruneStep_file]
    exact ih (fun p hp => h p (List.mem_cons_of_mem _ hp)) _

theorem foldl_pruneStep_dir_skip (m : String) (ps : List (List String))
    (h : ∀ p ∈ ps, ∃ n q, p = n :: q ∧ m ≠ n) : ∀ ch r : FT,
    List.foldl pruneStep (.dir m ch r) ps =
      .dir m ch (List.foldl pruneStep r ps) := by
  induction ps with
  | nil => intro ch r; rfl
  | cons p ps ih =>
    intro ch r
    obtain ⟨n, q, rfl, hmn⟩ := h p (by simp)
    simp only [List.foldl_cons]
    rw [pruneStep_dir_other _ _ _ _ _ hmn]
    exact ih (fun p hp => h p (List.mem_cons_of_mem _ hp)) ch _

theorem foldl_pruneStep_descend (n : String) (ps : List (List String))
    (h : ∀ p ∈ ps, p ≠ []) : ∀ ch r : FT,
    List.foldl pruneStep (.dir n ch r) (ps.map (fun p => n :: p)) =
      .dir n (List.foldl pruneStep ch ps) r := by
  induction ps with
  | nil => intro ch r; rfl
  | cons p ps ih =>
    intro ch r
    obtain ⟨p₁, p₂, rfl⟩ : ∃ a b, p = a :: b := by
      cases p with
      | nil => exact absurd rfl (h [] (by simp))
      | cons a b => exact ⟨a, b, rfl⟩
    simp only [List.map_cons, List.foldl_cons]
    rw [pruneStep_dir_descend]
    exact ih (fun p hp => h p (List.mem_cons_of_mem _ hp)) _ r

theorem collectDirs_head (t : FT) :
    ∀ p ∈ collectDirs t, ∃ n q, p = n :: q ∧ n ∈ FT.names t := by
  induction t with
  | nil =>
    intro p hp
    exact absurd hp (by simp [collectDirs])
  | file m r ih =>
    intro p hp
    rw [collectDirs] at hp
    obtain ⟨n, q, h1, h2⟩ := ih p hp
    exact ⟨n, q, h1, by rw [FT.names]; exact List.mem_cons_of_mem _ h2⟩
  | dir m ch r ihch ihr =>
    intro p hp
    rw [collectDirs] at hp
    rcases List.mem_cons.mp hp with rfl | hp'
    · exact ⟨m, [], rfl, by rw [FT.names]; exact List.mem_cons_self _ _⟩
    · rcases List.mem_append.mp hp' with hp2 | hp2
      · obtain ⟨q, hq, rfl⟩ := List.mem_map.mp hp2
        exact ⟨m, q, rfl, by rw [FT.names]; exact List.mem_cons_self _ _⟩
      · obtain ⟨n, q, h1, h2⟩ := ihr p hp2
        exact ⟨n, q, h1, by rw [FT.names]; exact List.mem_cons_of_mem _ h2⟩

/-! ## Claim C6: the pass equals the bottom-up prune -/

theorem removeEmpty_eq_pruneF (t : FT) (h : FT.wf t = true) :
    removeEmptySubdirectoriesF t = pruneF t := by
  induction t with
  | nil => rfl
  | file m r ih =>
    rw [FT.wf] at h
    have hr := ((Bool.and_eq_true _ _).mp h).2
    unfold removeEmptySubdirectoriesF
    rw [collectDirs]
    rw [foldl_pruneStep_file m _ ?hne r]
    · unfold removeEmptySubdirectoriesF at ih
      rw [ih hr, pruneF]
    case hne =>
      intro p hp
      rw [List.mem_reverse] at hp
      obtain ⟨n, q, rfl, _⟩ := collectDirs_head r p hp
      simp
  | dir m ch r ihch ihr =>
    rw [FT.wf] at h
    have hm : m ∉ FT.names r := by
      have := (((Bool.and_eq_true _ _).mp ((Bool.and_eq_true _ _).mp h).1).1)
      exact of_decide_eq_true this
    have hch : FT.wf ch = true :=
      ((Bool.and_eq_true _ _).mp ((Bool.and_eq_true _ _).mp h).1).2
    have hr : FT.wf r = true := ((Bool.and_eq_true _ _).mp h).2
    unfold removeEmptySubdirectoriesF
    rw [collectDirs, List.reverse_cons, List.reverse_append,
      List.foldl_append, List.foldl_append]
    rw [foldl_pruneStep_dir_skip m _ ?hskip ch r]
    rw [show ((collectDirs ch).map (fun p => m :: p)).reverse =
        ((collectDirs ch).reverse.map (fun p => m :: p)) by simp]
    rw [foldl_pruneStep_descend m ((collectDirs ch).reverse) ?hne]
    · unfold removeEmptySubdirectoriesF at ihch ihr
      rw [ihch hch, ihr hr]
      simp only [List.foldl_cons, List.foldl_nil]
      rw [pruneStep_dir_self]
      rw [pruneF]
    case hskip =>
      intro p hp
      rw [List.mem_reverse] at hp
      obtain ⟨n, q, rfl, hn⟩ := collectDirs_head r p hp
      exact ⟨n, q, rfl, fun he => hm (he ▸ hn)⟩
    case hne =>
      intro p hp
      rw [List.mem_reverse] at hp
      obtain ⟨n, q, rfl, _⟩ := collectDirs_head ch p hp
      simp

theorem pruneF_noEmptyDir (t : FT) : FT.noEmptyDir (pruneF t) = true := by
  induction t with
  | nil => rfl
  | file n r ih => simpa [pruneF, FT.noEmptyDir] using ih
  | dir n ch r ihch ihr =>
    by_cases h : FT.isNil (pruneF ch) = true
    · simp [pruneF, h, ihr]
    · simp [pruneF, h, FT.noEmptyDir, ihch, ihr]

/-! ## Claim C6: a tree without empty directories is a fixed point -/

theorem childrenOf_noEmpty (n : String) (ch : FT) :
    ∀ t : FT, FT.noEmptyDir t = true → childrenOf n t = some ch →
      FT.isNil ch = false ∧ FT.noEmptyDir ch = true := by
  intro t
  induction t with
  | nil => intro _ hc; exact absurd hc (by simp [childrenOf])
  | file m r ih =>
    intro h hc
    rw [FT.noEmptyDir] at h
    rw [childrenOf] at hc
    exact ih h hc
  | dir m ch' r ih1 ih2 =>
    intro h hc
    rw [FT.noEmptyDir] at h
    have h1 : FT.isNil ch' = false := by
      have := (((Bool.and_eq_true _ _).mp ((Bool.and_eq_true _ _).mp h).1).1)
      simpa using this
    have h2 : FT.noEmptyDir ch' = true :=
      ((Bool.and_eq_true _ _).mp ((Bool.and_eq_true _ _).mp h).1).2
    have h3 : FT.noEmptyDir r = true := ((Bool.and_eq_true _ _).mp h).2
    rw [childrenOf] at hc
    by_cases hm : m = n
    · rw [if_pos hm] at hc
      cases hc
      exact ⟨h1, h2⟩
    · rw [if_neg hm] at hc
      exact ih2 h3 hc

theorem lookupDir_noEmpty (p : List String) : ∀ t ch : FT,
    FT.noEmptyDir t = true → p ≠ [] → lookupDir p t = some ch →
      FT.isNil ch = false := by
  induction p with
  | nil => intro t ch _ hp _; exact absurd rfl hp
  | cons n q ih =>
    intro t ch h _ hl
    simp only [lookupDir] at hl
    cases hc : childrenOf n t with
    | none => rw [hc] at hl; exact absurd hl (by simp)
    | some ch1 =>
      rw [hc] at hl
      obtain ⟨h1, h2⟩ := childrenOf_noEmpty n ch1 t h hc
      cases q with
      | nil =>
        simp only [lookupDir] at hl
        cases hl
        exact h1
      | cons a b => exact ih ch1 ch h2 (by simp) hl

theorem pruneStep_id_of_noEmpty (t : FT) (h : FT.noEmptyDir t = true)
    (p : List String) (hp : p ≠ []) : pruneStep t p = t := by
  unfold pruneStep
  cases hl : lookupDir p t with
  | none => rfl
  | some ch => simp [lookupDir_noEmpty p t ch h hp hl]

theorem removeEmpty_id_of_noEmpty (t : FT) (h : FT.noEmptyDir t = true) :
    removeEmptySubdirectoriesF t = t := by
  unfold removeEmptySubdirectoriesF
  have key : ∀ ps : List (List String), (∀ p ∈ ps, p ≠ []) →
      List.foldl pruneStep t ps = t := by
    intro ps hps
    induction ps with
    | nil => rfl
    | cons p ps ih =>
      simp only [List.foldl_cons]
      rw [pruneStep_id_of_noEmpty t h p (hps p (by simp))]
      exact ih (fun p hp => hps p (List.mem_cons_of_mem _ hp))
  apply key
  intro p hp
  rw [List.mem_reverse] at hp
  obtain ⟨n, q, rfl, _⟩ := collectDirs_head t p hp
  simp

theorem iterate_noEmpty (k : Nat) (s : FT) (hs : FT.noEmptyDir s = true) :
    FT.noEmptyDir (removeEmptySubdirectoriesF^[k] s) = true := by
  induction k with
  | zero => simpa using hs
  | succ k ih =>
    rw [Function.iterate_succ_apply, removeEmpty_id_of_noEmpty s hs]
    exact ih

/-- Claim C6: one invocation of removeEmptySubdirectories — which
processes the collected directories in reverse discovery order, children
before their parents — already removes every removable empty directory:
on any well-formed tree a single pass leaves no empty directory below the
root, and iterating the pass any positive number of times (in particular
up to the tree depth) also leaves none. -/
theorem claim_C6 (t : FT) (h : FT.wf t = true) :
    FT.noEmptyDir (removeEmptySubdirectoriesF t) = true ∧
    ∀ k, 1 ≤ k → FT.noEmptyDir (removeEmptySubdirectoriesF^[k] t) = true := by
  have h1 : FT.noEmptyDir (removeEmptySubdirectoriesF t) = true := by
    rw [removeEmpty_eq_pruneF t h]
    exact pruneF_noEmptyDir t
  refine ⟨h1, fun k hk => ?_⟩
  obtain ⟨k', rfl⟩ : ∃ k', k = k' + 1 := ⟨k - 1, by omega⟩
  rw [Function.iterate_succ_apply]
  exact iterate_noEmpty k' _ h1

/-- Witness for claim C6 on a three-deep chain of empty directories next
to a file: one pass removes the chain, and two passes leave the same
tree. -/
theorem claim_C6_witness :
    FT.noEmptyDir (removeEmptySubdirectoriesF
      (.dir "a" (.dir "b" (.dir "c" .nil .nil) .nil) (.file "x" .nil))) = true ∧
    FT.noEmptyDir (removeEmptySubdirectoriesF^[2]
      (.dir "a" (.dir "b" (.dir "c" .nil .nil) .nil) (.file "x" .nil))) = true :=
  ⟨(claim_C6 (.dir "a" (.dir "b" (.dir "c" .nil .nil) .nil) (.file "x" .nil))
      (by decide)).1,
   (claim_C6 (.dir "a" (.dir "b" (.dir "c" .nil .nil) .nil) (.file "x" .nil))
      (by decide)).2 2 (by decide)⟩

end Enforce
